import Mathlib

/-!
Verification of the OpenMP-optimization pass of Polygeist
(`lib/polygeist/Passes/OpenMPOpt.cpp`).

The pass rewrites an MLIR-style region/block/operation tree.  We embed the
tree shallowly: operations carry a kind tag, operand/result value ids, and a
list of owned regions; a region is a list of blocks; a block carries its
block-argument ids and an ordered list of operations (whose last element is
the block terminator in well-formed IR).

Kind tags record exactly the facts about MLIR op definitions that
`OpenMPOpt.cpp` consults:
  * `parallel`  : `omp.ParallelOp` — one owned region, `RecursiveSideEffects`
                  trait, does not implement `MemoryEffectOpInterface`;
  * `barrier`   : `omp.BarrierOp` — no regions, no effect interface;
  * `forLoop`   : `scf.ForOp` — one region, `RecursiveSideEffects`, no
                  effect interface;
  * `ifOp`      : `scf.IfOp` — then/else regions, `RecursiveSideEffects`,
                  no effect interface;
  * `term`      : a region terminator (`omp.terminator` / `scf.yield`),
                  modelled as effect-free;
  * `generic`   : any other operation, parameterized by whether it
                  implements `MemoryEffectOpInterface`, whether it has the
                  `HasRecursiveSideEffects` trait, its declared effect
                  kinds, and an identifying tag.
-/

namespace OMP

/-- A memory effect kind as declared through `MemoryEffectOpInterface`. -/
inductive EffKind : Type where
  | read
  | write
  | alloc
  | free
deriving DecidableEq

/-- Operation kind tags; see the module docstring for the MLIR mapping. -/
inductive OpKind : Type where
  | parallel
  | barrier
  | forLoop
  | ifOp
  | term
  | func
  | generic (hasIface : Bool) (recTrait : Bool) (effects : List EffKind) (tag : Nat)
deriving DecidableEq

mutual
/-- An operation: kind, operand value ids, result value ids, owned regions. -/
inductive Op : Type where
  | mk (kind : OpKind) (operands : List Nat) (results : List Nat) (regions : List Region)

/-- A region: an ordered list of owned blocks. -/
inductive Region : Type where
  | mk (blocks : List Block)

/-- A block: its argument value ids and its ordered list of operations. -/
inductive Block : Type where
  | mk (args : List Nat) (ops : List Op)
end

def Op.kind : Op → OpKind
  | .mk k _ _ _ => k

def Op.operands : Op → List Nat
  | .mk _ os _ _ => os

def Op.results : Op → List Nat
  | .mk _ _ rs _ => rs

def Op.regions : Op → List Region
  | .mk _ _ _ regs => regs

def Region.blocks : Region → List Block
  | .mk bs => bs

def Block.args : Block → List Nat
  | .mk as _ => as

def Block.ops : Block → List Op
  | .mk _ ops => ops

/-- `omp.BarrierOp`: created by the rewrites with no operands and no results
(`rewriter.replaceOpWithNewOp<omp::BarrierOp>(..., TypeRange())`). -/
def barrierOp : Op := .mk .barrier [] [] []

/-- Split a list into its initial segment and its last element. -/
def splitLast : List α → Option (List α × α)
  | [] => none
  | [a] => some ([], a)
  | a :: b :: rest =>
    match splitLast (b :: rest) with
    | some (xs, l) => some (a :: xs, l)
    | none => none

mutual
/-- All operand occurrences (value uses) in an operation's subtree,
including the operation's own operand list. -/
def opUses : Op → List Nat
  | .mk _ operands _ regs => operands ++ regionsUses regs

def regionsUses : List Region → List Nat
  | [] => []
  | r :: rs => regionUses r ++ regionsUses rs

def regionUses : Region → List Nat
  | .mk bs => blocksUses bs

def blocksUses : List Block → List Nat
  | [] => []
  | b :: bs => blockUses b ++ blocksUses bs

def blockUses : Block → List Nat
  | .mk _ ops => opsUses ops

def opsUses : List Op → List Nat
  | [] => []
  | o :: os => opUses o ++ opsUses os
end

mutual
/-- Whether the subtree rooted at an operation contains a `ParallelRegionOp`
(the operation itself included).  Used for the applicability guard of
`CombineParallel`, which walks the enclosing function. -/
def hasParOp : Op → Bool
  | .mk k _ _ regs => k == .parallel || hasParRegions regs

def hasParRegions : List Region → Bool
  | [] => false
  | r :: rs => hasParRegion r || hasParRegions rs

def hasParRegion : Region → Bool
  | .mk bs => hasParBlocks bs

def hasParBlocks : List Block → Bool
  | [] => false
  | b :: bs => hasParBlock b || hasParBlocks bs

def hasParBlock : Block → Bool
  | .mk _ ops => hasParOps ops

def hasParOps : List Op → Bool
  | [] => false
  | o :: os => hasParOp o || hasParOps os
end

/-- Whether the op kind carries the `HasRecursiveSideEffects` trait. -/
def hasRecTrait : OpKind → Bool
  | .parallel => true
  | .forLoop => true
  | .ifOp => true
  | .generic _ rt _ _ => rt
  | _ => false

/-- The effects declared through `MemoryEffectOpInterface`, or `none` when
the operation does not implement the interface
(`dyn_cast<MemoryEffectOpInterface>(op)` fails). -/
def kindIface : OpKind → Option (List EffKind)
  | .term => some []
  | .generic true _ effs _ => some effs
  | _ => none

mutual
/-- `isReadOnly` from `OpenMPOpt.cpp`: if the op has the recursive
side-effect trait, every nested op must be read-only; then the op must
implement the memory-effect interface and declare only `Read` effects
(`llvm::all_of(effects, ... isa<MemoryEffects::Read>)`); an op without the
interface is not read-only (the final `return false`). -/
def isReadOnly : Op → Bool
  | .mk k _ _ regs =>
    (!hasRecTrait k || readOnlyRegions regs) &&
      (match kindIface k with
       | some effs => effs.all (· == .read)
       | none => false)

def readOnlyRegions : List Region → Bool
  | [] => true
  | r :: rs => readOnlyRegion r && readOnlyRegions rs

def readOnlyRegion : Region → Bool
  | .mk bs => readOnlyBlocks bs

def readOnlyBlocks : List Block → Bool
  | [] => true
  | b :: bs => readOnlyBlock b && readOnlyBlocks bs

def readOnlyBlock : Block → Bool
  | .mk _ ops => readOnlyOps ops

def readOnlyOps : List Op → Bool
  | [] => true
  | o :: os => isReadOnly o && readOnlyOps os
end

mutual
/-- Read-only in the sense of the spec's words (for comparison with the
source's `isReadOnly`): the operation, together with everything nested in
its owned regions, "declares only read effects or no effects at all" —
per operation, either the declared effect list holds only reads, or the
operation declares nothing; nested regions are always examined. -/
def specReadOnly : Op → Bool
  | .mk k _ _ regs =>
    (match kindIface k with
     | some effs => effs.all (· == .read)
     | none => true) && specReadOnlyRegions regs

def specReadOnlyRegions : List Region → Bool
  | [] => true
  | r :: rs => specReadOnlyRegion r && specReadOnlyRegions rs

def specReadOnlyRegion : Region → Bool
  | .mk bs => specReadOnlyBlocks bs

def specReadOnlyBlocks : List Block → Bool
  | [] => true
  | b :: bs => specReadOnlyBlock b && specReadOnlyBlocks bs

def specReadOnlyBlock : Block → Bool
  | .mk _ ops => specReadOnlyOps ops

def specReadOnlyOps : List Op → Bool
  | [] => true
  | o :: os => specReadOnly o && specReadOnlyOps os
end

mutual
/-- The subtree fully declares its effects: every operation implements the
memory-effect interface, and every operation owning a region carries the
recursive side-effect trait.  On this domain the source classifier and the
spec's description coincide. -/
def wellDeclared : Op → Bool
  | .mk k _ _ regs =>
    (kindIface k).isSome && (regs.isEmpty || hasRecTrait k) && wellDeclaredRegions regs

def wellDeclaredRegions : List Region → Bool
  | [] => true
  | r :: rs => wellDeclaredRegion r && wellDeclaredRegions rs

def wellDeclaredRegion : Region → Bool
  | .mk bs => wellDeclaredBlocks bs

def wellDeclaredBlocks : List Block → Bool
  | [] => true
  | b :: bs => wellDeclaredBlock b && wellDeclaredBlocks bs

def wellDeclaredBlock : Block → Bool
  | .mk _ ops => wellDeclaredOps ops

def wellDeclaredOps : List Op → Bool
  | [] => true
  | o :: os => wellDeclared o && wellDeclaredOps os
end

mutual
/-- No `BarrierOp` anywhere in the subtree. -/
def noBarrier : Op → Bool
  | .mk k _ _ regs => !(k == .barrier) && noBarrierRegions regs

def noBarrierRegions : List Region → Bool
  | [] => true
  | r :: rs => noBarrierRegion r && noBarrierRegions rs

def noBarrierRegion : Region → Bool
  | .mk bs => noBarrierBlocks bs

def noBarrierBlocks : List Block → Bool
  | [] => true
  | b :: bs => noBarrierBlock b && noBarrierBlocks bs

def noBarrierBlock : Block → Bool
  | .mk _ ops => noBarrierOps ops

def noBarrierOps : List Op → Bool
  | [] => true
  | o :: os => noBarrier o && noBarrierOps os
end

mutual
/-- Use-def validity for structured IR ("all uses reachable from their
definitions"): every operand of every operation refers to a value defined
earlier in its own block, to an enclosing block's argument, or to a value
defined by an operation that precedes an enclosing ancestor in its block.
`env` is the list of value ids visible on entry. -/
def scopeOp (env : List Nat) : Op → Bool
  | .mk _ operands _ regs =>
    operands.all (fun v => env.contains v) && scopeRegions env regs

def scopeRegions (env : List Nat) : List Region → Bool
  | [] => true
  | r :: rs => scopeRegion env r && scopeRegions env rs

def scopeRegion (env : List Nat) : Region → Bool
  | .mk bs => scopeBlocks env bs

def scopeBlocks (env : List Nat) : List Block → Bool
  | [] => true
  | b :: bs => scopeBlock env b && scopeBlocks env bs

def scopeBlock (env : List Nat) : Block → Bool
  | .mk args ops => scopeOps (env ++ args) ops

def scopeOps (env : List Nat) : List Op → Bool
  | [] => true
  | o :: os => scopeOp env o && scopeOps (env ++ o.results) os
end

/-- The operations of the front block of an operation's first region
(`op.getRegion().front()`); `[]` when the op owns no block. -/
def frontOps : Op → List Op
  | .mk _ _ _ (.mk (.mk _ ops :: _) :: _) => ops
  | _ => []

/-- Rebuild an operation with the ops of its first region's front block
transformed by `f`; identity when the op owns no block (well-formed
`omp.ParallelOp`s always own one single-block region). -/
def updateFront (f : List Op → List Op) : Op → Op
  | .mk k os rs (.mk (.mk args ops :: bs) :: regs) =>
    .mk k os rs (.mk (.mk args (f ops) :: bs) :: regs)
  | op => op

/-- The merge step of `CombineParallel` (OpenMPOpt.cpp lines 120-126):
replace the terminator of `Q`'s front block with a `BarrierOp`
(`replaceOpWithNewOp<omp::BarrierOp>`), then merge `P`'s front block onto
the end of `Q`'s (`mergeBlocks`); `P` itself is erased, the caller keeps
only the merged op. -/
def mergeParallel (Q P : Op) : Op :=
  updateFront (fun qOps => qOps.dropLast ++ [barrierOp] ++ frontOps P) Q

/-- Relocation of an eligible predecessor `Q` into `P` (lines 106-110):
`rewriter.clone` at the start of `P`'s region front block followed by
`rewriter.replaceOp(prevOp, replacement->getResults())`, which redirects
every use of `Q`'s results to the clone and erases the original — the net
effect is moving `Q` (value ids preserved) to the front of `P`'s body. -/
def prependIntoFront (Q P : Op) : Op :=
  updateFront (fun ops => Q :: ops) P

/-- Eligibility of a non-parallel predecessor `Q` (lines 100-105): `Q` is
read-only and every use of every result of `Q` lies in an operation `user`
with `nextParallel->isAncestor(user)`.  `Operation::isAncestor` is
self-inclusive, so the check only rules out uses occurring outside `P`'s
subtree: in the enclosing context (`ctxUses`, covering the rest of the
function, operations after `P` included), in the block operations before
`Q` (`rest`), or inside `Q`'s own subtree — a use by `P` itself passes. -/
def eligible (ctxUses : List Nat) (rest : List Op) (Q : Op) : Bool :=
  isReadOnly Q &&
    Q.results.all (fun v =>
      !(ctxUses.contains v || (opsUses rest).contains v || (opUses Q).contains v))

/-- The backward scan of `CombineParallel` (lines 95-118).  `preRev` lists
the operations before `P` nearest-first; `changed` records whether a
relocation already happened.  Returns the `LogicalResult` (`true` is
success) together with the list replacing `preRev.reverse ++ [P]` in the
block; a failure mutates nothing, so the input segment is returned. -/
def combineScan (ctxUses : List Nat) : List Op → Op → Bool → Bool × List Op
  | [], P, changed => (changed, [P])
  | Q :: rest, P, changed =>
    if Q.kind == .parallel then
      (true, rest.reverse ++ [mergeParallel Q P])
    else if eligible ctxUses rest Q then
      let P' := prependIntoFront Q P
      if rest.isEmpty then
        (true, [P'])
      else
        combineScan ctxUses rest P' true
    else
      (changed, (Q :: rest).reverse ++ [P])

/-- `CombineParallel::matchAndRewrite` (lines 73-127) for a parallel `P`
preceded in its block by `pre` (in block order).  `ctxUses` lists every
value use, and `ctxHasPar` records whether a `ParallelRegionOp` occurs, in
the function outside `pre ++ [P]` (operations after `P`, sibling subtrees,
ancestors' operand lists).  Returns the `LogicalResult` and the replacement
for `pre ++ [P]`. -/
def combineParallel (ctxUses : List Nat) (ctxHasPar : Bool) (pre : List Op) (P : Op) :
    Bool × List Op :=
  if pre.isEmpty then
    (false, pre ++ [P])
  else if !(ctxHasPar || pre.any hasParOp) then
    (false, pre ++ [P])
  else
    combineScan ctxUses pre.reverse P false

/-- `ParallelForInterchange::matchAndRewrite` (lines 130-157), anchored for
the embedding at the parent loop: it fires when a zero-result `scf.ForOp`'s
body block holds exactly a `ParallelRegionOp` and the loop terminator (the
size-2 check on the parallel's block; in verified IR the parallel precedes
the terminator).  The parallel moves before the loop, its body (terminator
excluded) is spliced in place of the loop body, a barrier is appended just
before the loop terminator, and the loop moves into the parallel's region
followed by the clone of the parallel's original terminator.  Returns the
operation replacing the loop, or `none` when the pattern does not fire. -/
def parallelForInterchange : Op → Option Op
  | .mk .forLoop fOperands [] (.mk (.mk fArgs fOps :: fBlocks) :: fRegs) =>
    match fOps with
    | [P, t] =>
      match P with
      | .mk .parallel pOperands pResults (.mk (.mk pArgs pOps :: pBlocks) :: pRegs) =>
        match splitLast pOps with
        | some (body, yld) =>
          let F' := Op.mk .forLoop fOperands []
            (.mk (.mk fArgs (body ++ [barrierOp, t]) :: fBlocks) :: fRegs)
          some (.mk .parallel pOperands pResults
            (.mk (.mk pArgs [F', yld] :: pBlocks) :: pRegs))
        | none => none
      | _ => none
    | _ => none
  | _ => none

/-- The then-branch case of `ParallelIfInterchange`: the conditional's then
block holds exactly the parallel and the terminator. -/
def ifInterchangeThen (iOperands tArgs : List Nat) (tOps : List Op)
    (tBlocks : List Block) (elseRegs : List Region) : Option Op :=
  match tOps with
  | [P, t] =>
    match P with
    | .mk .parallel pOperands pResults (.mk (.mk pArgs pOps :: pBlocks) :: pRegs) =>
      match splitLast pOps with
      | some (body, yld) =>
        let I' := Op.mk .ifOp iOperands []
          (.mk (.mk tArgs (body ++ [t]) :: tBlocks) :: elseRegs)
        some (.mk .parallel pOperands pResults
          (.mk (.mk pArgs [I', yld] :: pBlocks) :: pRegs))
      | none => none
    | _ => none
  | _ => none

/-- The else-branch case of `ParallelIfInterchange`: the pattern is
anchored at the parallel, whose block may equally be the front block of the
conditional's else region; the source then still merges the parallel's body
into `getBody()`, the then block. -/
def ifInterchangeElse (iOperands tArgs : List Nat) (tOps : List Op)
    (tBlocks : List Block) (elseRegs : List Region) : Option Op :=
  match elseRegs with
  | .mk (.mk eArgs eOps :: eBlocks) :: moreRegs =>
    match eOps with
    | [P, te] =>
      match P with
      | .mk .parallel pOperands pResults (.mk (.mk pArgs pOps :: pBlocks) :: pRegs) =>
        match splitLast pOps with
        | some (body, yld) =>
          let I' := Op.mk .ifOp iOperands []
            (.mk (.mk tArgs (body ++ tOps) :: tBlocks)
              :: .mk (.mk eArgs [te] :: eBlocks) :: moreRegs)
          some (.mk .parallel pOperands pResults
            (.mk (.mk pArgs [I', yld] :: pBlocks) :: pRegs))
        | none => none
      | _ => none
    | _ => none
  | _ => none

/-- `ParallelIfInterchange::matchAndRewrite` (lines 159-184), anchored for
the embedding at the parent conditional: fires when a zero-result
`scf.IfOp` owns a branch whose front block holds exactly a
`ParallelRegionOp` and the branch terminator.  The parallel's body
(terminator excluded) is merged before the first operation of the THEN
block (`prevIf.getBody()->front()`) whichever branch held the parallel,
no barrier is inserted, and the conditional moves into the parallel's
region followed by the clone of the parallel's original terminator. -/
def parallelIfInterchange : Op → Option Op
  | .mk .ifOp iOperands [] (.mk (.mk tArgs tOps :: tBlocks) :: elseRegs) =>
    match ifInterchangeThen iOperands tArgs tOps tBlocks elseRegs with
    | some r => some r
    | none => ifInterchangeElse iOperands tArgs tOps tBlocks elseRegs
  | _ => none

/-- One attempt cascade at a block position, in registration order
(`CombineParallel`, then the two interchanges), re-trying at the position
while a pattern fires, as the worklist driver does after a successful
rewrite.  `done` holds the block's operations before the position;
`rcUses` / `rcHasPar` describe the function outside `done ++ [cur]`. -/
def applyRules : Nat → List Nat → Bool → List Op → Op → List Op × Op
  | 0, _, _, done, cur => (done, cur)
  | fuel+1, rcUses, rcHasPar, done, cur =>
    if cur.kind == .parallel then
      match combineParallel rcUses rcHasPar done cur with
      | (true, seg) =>
        match splitLast seg with
        | some (d', c') => applyRules fuel rcUses rcHasPar d' c'
        | none => (done, cur)
      | (false, _) => (done, cur)
    else
      match parallelForInterchange cur with
      | some c' => applyRules fuel rcUses rcHasPar done c'
      | none =>
        match parallelIfInterchange cur with
        | some c' => applyRules fuel rcUses rcHasPar done c'
        | none => (done, cur)

mutual
/-- Modelled from the spec: one iteration of the worklist-based greedy
pattern-rewrite driver (the driver, `applyPatternsAndFoldGreedily`, is
external MLIR code, not part of this repository; the spec describes it as
applying the rules to every operation and re-queuing the neighbours of any
firing rewrite).  The sweep walks the tree bottom-up, carrying the value
uses (`ctxUses`) and the parallel-occurrence flag (`ctxHasPar`) of the
function outside the current subtree, and applies the pattern cascade at
every block position. -/
def sweepOp (ctxUses : List Nat) (ctxHasPar : Bool) : Op → Op
  | .mk k operands results regs =>
    .mk k operands results
      (sweepRegions (ctxUses ++ operands) (ctxHasPar || k == .parallel) [] regs)

def sweepRegions (base : List Nat) (basePar : Bool) :
    List Region → List Region → List Region
  | done, [] => done.reverse
  | done, r :: todo =>
    let r' := sweepRegion (base ++ regionsUses done ++ regionsUses todo)
      (basePar || hasParRegions done || hasParRegions todo) r
    sweepRegions base basePar (r' :: done) todo

def sweepRegion (ctxUses : List Nat) (ctxHasPar : Bool) : Region → Region
  | .mk bs => .mk (sweepBlocks ctxUses ctxHasPar [] bs)

def sweepBlocks (base : List Nat) (basePar : Bool) :
    List Block → List Block → List Block
  | done, [] => done.reverse
  | done, b :: todo =>
    let b' := sweepBlock (base ++ blocksUses done ++ blocksUses todo)
      (basePar || hasParBlocks done || hasParBlocks todo) b
    sweepBlocks base basePar (b' :: done) todo

def sweepBlock (ctxUses : List Nat) (ctxHasPar : Bool) : Block → Block
  | .mk args ops => .mk args (sweepOps ctxUses ctxHasPar [] ops)

def sweepOps (ctxUses : List Nat) (ctxHasPar : Bool) : List Op → List Op → List Op
  | done, [] => done
  | done, o :: todo =>
    let o' := sweepOp (ctxUses ++ opsUses done ++ opsUses todo)
      (ctxHasPar || hasParOps done || hasParOps todo) o
    let dc := applyRules (done.length + 2) (ctxUses ++ opsUses todo)
      (ctxHasPar || hasParOps todo) done o'
    sweepOps ctxUses ctxHasPar (dc.1 ++ [dc.2]) todo
end

/-- Modelled from the spec: the pass entry point, `config.maxIterations =
47` iterations of the sweep (a sweep that changes nothing leaves the tree
fixed, so iterating unconditionally agrees with the early-exit driver, and
exhausting the cap is not an error: the rewrites done so far are kept). -/
def runPass (f : Op) : Op := Nat.iterate (sweepOp [] false) 47 f

/-- A region terminator operation. -/
def termOp : Op := .mk .term [] [] []

/-- An `omp.parallel` with an empty body. -/
def parTrivial : Op := .mk .parallel [] [] [.mk [.mk [] [termOp]]]

/-- A generic operation declaring a write effect. -/
def writerOp : Op := .mk (.generic true false [.write] 1) [] [] []

/-- A generic read-only operation defining value 7. -/
def readerOp : Op := .mk (.generic true false [.read] 2) [] [7] []

/-- An `omp.parallel` taking value 7 as its own operand (such as a
`num_threads` clause operand), with an empty body. -/
def parUsing7 : Op := .mk .parallel [7] [] [.mk [.mk [] [termOp]]]

/-- A function whose body block is
`parallel {}; writer; reader (defines 7); parallel (7) {}; return`. -/
def funcBug : Op :=
  .mk .func [] [] [.mk [.mk [] [parTrivial, writerOp, readerOp, parUsing7, termOp]]]

/-- A generic operation with no memory-effect interface, no recursive
trait, no regions, no results: it performs and declares nothing at all. -/
def ifaceless : Op := .mk (.generic false false [] 0) [] [] []

/-- The parallel of `funcBug` after the pass: the reader has been relocated
to the front of its body while the parallel still uses value 7. -/
def parBug : Op := .mk .parallel [7] [] [.mk [.mk [] [readerOp, termOp]]]

/-- The fixpoint the pass reaches on `funcBug`. -/
def funcBugAfter : Op :=
  .mk .func [] [] [.mk [.mk [] [parTrivial, writerOp, parBug, termOp]]]

/- ------------------------------------------------------------------ -/
/- Theorems.                                                          -/
/- ------------------------------------------------------------------ -/

theorem splitLast_concat (xs : List α) (y : α) :
    splitLast (xs ++ [y]) = some (xs, y) := by
  induction xs with
  | nil => rfl
  | cons a as ih =>
    cases as with
    | nil => simp [splitLast] at ih ⊢
    | cons b bs => simp [splitLast] at ih ⊢; simp [ih]

/-- C1: when `CombineParallel`, matched at a `ParallelRegionOp` `P`, reaches
a preceding `ParallelRegionOp` `Q`, the rewrite replaces the terminator of
`Q`'s body with a `BarrierOp`, appends all contents of `P`'s body after
`Q`'s body contents, and erases `P`: the block segment `pre ++ [Q, P]`
becomes `pre ++ [Q']` where `Q'`'s body is exactly
`[Q-body, barrier, P-body]`. -/
theorem c1_merge_bodies (ctxUses : List Nat) (ctxHasPar : Bool) (pre : List Op)
    (qos qrs qargs pos prs pargs : List Nat) (qops pops : List Op)
    (qbs pbs : List Block) (qregs pregs : List Region) :
    combineParallel ctxUses ctxHasPar
      (pre ++ [Op.mk .parallel qos qrs (.mk (.mk qargs qops :: qbs) :: qregs)])
      (Op.mk .parallel pos prs (.mk (.mk pargs pops :: pbs) :: pregs)) =
    (true, pre ++ [Op.mk .parallel qos qrs
      (.mk (.mk qargs (qops.dropLast ++ [barrierOp] ++ pops) :: qbs) :: qregs)]) := by
  simp [combineParallel, List.isEmpty_iff, List.any_append, hasParOp,
    List.reverse_append, combineScan, Op.kind, mergeParallel, updateFront, frontOps]

/-- C4 (code bug): `Operation::isAncestor` is self-inclusive, so a use of a
result of the read-only predecessor `Q` by `P` itself passes the use check,
and `Q` is relocated into `P`'s body even though `P` keeps that operand:
here `P` uses value 7 defined by the reader, yet `CombineParallel` clones
the reader into `P`'s body and erases the original, leaving `P`'s operand
referring to a value defined inside `P`'s own region. -/
theorem c4_self_use_relocated :
    combineParallel [] true [readerOp] parUsing7 =
      (true, [Op.mk .parallel [7] [] [.mk [.mk [] [readerOp, termOp]]]]) := rfl

/-- C6: `CombineParallel` returns failure, leaving the segment unchanged,
when `P` is the first operation of its block (`pre = []`) or when the
enclosing function contains no other `ParallelRegionOp` outside `P`'s
subtree (no parallel in the context nor in the predecessors). -/
theorem c6_no_fire (ctxUses : List Nat) (ctxHasPar : Bool) (pre : List Op) (P : Op)
    (h : pre = [] ∨ (ctxHasPar = false ∧ pre.any hasParOp = false)) :
    combineParallel ctxUses ctxHasPar pre P = (false, pre ++ [P]) := by
  rcases h with h | ⟨h1, h2⟩
  · subst h; rfl
  · simp [combineParallel, h1, h2]

theorem c6_no_fire_witness :
    ([writerOp].any hasParOp = false) ∧
      combineParallel [] false [writerOp] parTrivial = (false, [writerOp, parTrivial]) :=
  ⟨rfl, c6_no_fire [] false [writerOp] parTrivial (Or.inr ⟨rfl, rfl⟩)⟩

/-- C8 (code bug): on `funcBug` the driver terminates within the cap (the
sweep is already at a fixpoint after one iteration), but the resulting tree
violates the use-def structural invariant: the relocation of the reader
into the parallel that itself uses value 7 (see C4) leaves that operand
defined inside the parallel's own region, unreachable per dominance. -/
theorem c8_use_def_invariant_broken :
    scopeOp [] funcBug = true ∧ runPass funcBug = funcBugAfter ∧
      scopeOp [] funcBugAfter = false := by
  refine ⟨rfl, ?_, rfl⟩
  have h1 : sweepOp [] false funcBug = funcBugAfter := rfl
  have h2 : sweepOp [] false funcBugAfter = funcBugAfter := rfl
  show Nat.iterate (sweepOp [] false) 47 funcBug = funcBugAfter
  rw [show (47 : Nat) = 46 + 1 from rfl, Function.iterate_add_apply]
  simp only [Function.iterate_one, h1]
  exact Function.iterate_fixed h2 46

/-- C2: a `ParallelRegionOp` alone with the terminator in the body of a
zero-result `ForLoopOp` is interchanged to `parallel { for { body; barrier
} }`: the loop's new body is the parallel's body (its terminator excluded)
with a `BarrierOp` appended just before the loop terminator, and the
parallel's region becomes the loop followed by the clone of the parallel's
original terminator; a loop with one or more results never fires. -/
theorem c2_for_interchange :
    (∀ (fos fargs pos prs pargs : List Nat) (fbs pbs : List Block)
        (fregs pregs : List Region) (body : List Op) (yld t : Op),
      parallelForInterchange
        (.mk .forLoop fos [] (.mk (.mk fargs
          [.mk .parallel pos prs (.mk (.mk pargs (body ++ [yld]) :: pbs) :: pregs),
           t] :: fbs) :: fregs)) =
      some (.mk .parallel pos prs (.mk (.mk pargs
        [.mk .forLoop fos []
           (.mk (.mk fargs (body ++ [barrierOp, t]) :: fbs) :: fregs),
         yld] :: pbs) :: pregs))) ∧
    (∀ (fos : List Nat) (r : Nat) (rs : List Nat) (regs : List Region),
      parallelForInterchange (.mk .forLoop fos (r :: rs) regs) = none) := by
  constructor
  · intro fos fargs pos prs pargs fbs pbs fregs pregs body yld t
    simp [parallelForInterchange, splitLast_concat]
  · intro fos r rs regs
    rcases regs with _ | ⟨⟨_ | ⟨⟨bargs, bops⟩, bs⟩⟩, rest⟩ <;> rfl

theorem noBarrierOps_append (xs ys : List Op) :
    noBarrierOps (xs ++ ys) = (noBarrierOps xs && noBarrierOps ys) := by
  induction xs with
  | nil => simp [noBarrierOps]
  | cons a as ih => simp [noBarrierOps, ih, Bool.and_assoc]

/-- C3: `if (cond) { parallel { body } }` — a `ParallelRegionOp` alone with
the terminator in the then block of a zero-result `IfOp` — becomes
`parallel { if (cond) { body } }`: the conditional's then block receives
the parallel's body (terminator excluded) before its own terminator, and
the parallel's region becomes the conditional followed by the clone of the
parallel's original terminator; no `BarrierOp` is inserted anywhere in the
result (none appears that was not already in the input). -/
theorem c3_if_interchange (ios targs pos prs pargs : List Nat)
    (tbs pbs : List Block) (eregs pregs : List Region) (body : List Op)
    (yld t : Op) :
    parallelIfInterchange
      (.mk .ifOp ios [] (.mk (.mk targs
        [.mk .parallel pos prs (.mk (.mk pargs (body ++ [yld]) :: pbs) :: pregs),
         t] :: tbs) :: eregs)) =
      some (.mk .parallel pos prs (.mk (.mk pargs
        [.mk .ifOp ios [] (.mk (.mk targs (body ++ [t]) :: tbs) :: eregs),
         yld] :: pbs) :: pregs)) ∧
    (noBarrier
        (.mk .ifOp ios [] (.mk (.mk targs
          [.mk .parallel pos prs (.mk (.mk pargs (body ++ [yld]) :: pbs) :: pregs),
           t] :: tbs) :: eregs)) = true →
      noBarrier
        (.mk .parallel pos prs (.mk (.mk pargs
          [.mk .ifOp ios [] (.mk (.mk targs (body ++ [t]) :: tbs) :: eregs),
           yld] :: pbs) :: pregs)) = true) := by
  constructor
  · simp [parallelIfInterchange, ifInterchangeThen, splitLast_concat]
  · intro h
    simp [noBarrier, noBarrierRegions, noBarrierRegion, noBarrierBlocks,
      noBarrierBlock, noBarrierOps, noBarrierOps_append] at h ⊢
    tauto

theorem c3_if_interchange_witness :
    noBarrier
        (.mk .ifOp [4] [] [.mk [.mk []
          [.mk .parallel [] [] [.mk [.mk [] ([] ++ [termOp])]],
           termOp]], .mk []]) = true ∧
      parallelIfInterchange
        (.mk .ifOp [4] [] [.mk [.mk []
          [.mk .parallel [] [] [.mk [.mk [] ([] ++ [termOp])]],
           termOp]], .mk []]) =
        some (.mk .parallel [] [] [.mk [.mk []
          [.mk .ifOp [4] [] [.mk [.mk [] ([] ++ [termOp])], .mk []],
           termOp]]]) ∧
      noBarrier
        (.mk .parallel [] [] [.mk [.mk []
          [.mk .ifOp [4] [] [.mk [.mk [] ([] ++ [termOp])], .mk []],
           termOp]]]) = true := by
  refine ⟨rfl, ?_, ?_⟩
  · exact (c3_if_interchange [4] [] [] [] [] [] [] [Region.mk []] [] [] termOp termOp).1
  · exact (c3_if_interchange [4] [] [] [] [] [] [] [Region.mk []] [] [] termOp termOp).2 rfl

mutual
theorem readOnly_eq_spec : ∀ o : Op, wellDeclared o = true →
    isReadOnly o = specReadOnly o
  | .mk k os rs regs, h => by
    have h' := h
    simp [wellDeclared, Bool.and_eq_true, Bool.or_eq_true] at h'
    obtain ⟨⟨h1, h2⟩, h3⟩ := h'
    obtain ⟨effs, he⟩ := Option.isSome_iff_exists.mp h1
    have hreg := readOnly_eq_specRegions regs h3
    rcases h2 with h2 | h2
    · have hnil : regs = [] := by cases regs <;> simp_all [List.isEmpty]
      subst hnil
      simp [isReadOnly, specReadOnly, he, readOnlyRegions, specReadOnlyRegions]
    · simp [isReadOnly, specReadOnly, he, h2, hreg, Bool.and_comm]

theorem readOnly_eq_specRegions : ∀ rs : List Region,
    wellDeclaredRegions rs = true → readOnlyRegions rs = specReadOnlyRegions rs
  | [], _ => rfl
  | r :: rs, h => by
    simp [wellDeclaredRegions, Bool.and_eq_true] at h
    simp [readOnlyRegions, specReadOnlyRegions,
      readOnly_eq_specRegion r h.1, readOnly_eq_specRegions rs h.2]

theorem readOnly_eq_specRegion : ∀ r : Region,
    wellDeclaredRegion r = true → readOnlyRegion r = specReadOnlyRegion r
  | .mk bs, h => by
    simp [wellDeclaredRegion] at h
    simp [readOnlyRegion, specReadOnlyRegion, readOnly_eq_specBlocks bs h]

theorem readOnly_eq_specBlocks : ∀ bs : List Block,
    wellDeclaredBlocks bs = true → readOnlyBlocks bs = specReadOnlyBlocks bs
  | [], _ => rfl
  | b :: bs, h => by
    simp [wellDeclaredBlocks, Bool.and_eq_true] at h
    simp [readOnlyBlocks, specReadOnlyBlocks,
      readOnly_eq_specBlock b h.1, readOnly_eq_specBlocks bs h.2]

theorem readOnly_eq_specBlock : ∀ b : Block,
    wellDeclaredBlock b = true → readOnlyBlock b = specReadOnlyBlock b
  | .mk args ops, h => by
    simp [wellDeclaredBlock] at h
    simp [readOnlyBlock, specReadOnlyBlock, readOnly_eq_specOps ops h]

theorem readOnly_eq_specOps : ∀ ops : List Op,
    wellDeclaredOps ops = true → readOnlyOps ops = specReadOnlyOps ops
  | [], _ => rfl
  | o :: os, h => by
    simp [wellDeclaredOps, Bool.and_eq_true] at h
    simp [readOnlyOps, specReadOnlyOps,
      readOnly_eq_spec o h.1, readOnly_eq_specOps os h.2]
end

/-- C5 counterexample: an operation that implements no memory-effect
interface, owns no region and declares nothing — by the spec's words it
"performs no writes, no allocations and no frees" and "declares no effects
at all", yet the source classifier returns false for it, so the claimed
exact characterization fails. -/
theorem c5_counterexample :
    specReadOnly ifaceless = true ∧ isReadOnly ifaceless = false := ⟨rfl, rfl⟩

/-- C5 amended: on operations whose subtree fully declares its effects —
every op implements the memory-effect interface and every op owning a
region carries the recursive side-effect trait — the classifier returns
read-only exactly when the whole subtree declares only read effects (or
none). -/
theorem c5_classifier_eq_spec (o : Op) (h : wellDeclared o = true) :
    isReadOnly o = specReadOnly o := readOnly_eq_spec o h

theorem c5_classifier_eq_spec_witness :
    wellDeclared readerOp = true ∧ isReadOnly readerOp = specReadOnly readerOp :=
  ⟨rfl, c5_classifier_eq_spec readerOp rfl⟩

theorem combineScan_progress (ctxUses : List Nat) :
    ∀ (preRev : List Op) (P : Op) (ch : Bool),
      combineScan ctxUses preRev P ch = (ch, preRev.reverse ++ [P]) ∨
        ((combineScan ctxUses preRev P ch).1 = true ∧
          (combineScan ctxUses preRev P ch).2.length < preRev.length + 1)
  | [], P, ch => Or.inl rfl
  | Q :: rest, P, ch => by
    by_cases hq : (Q.kind == .parallel) = true
    · right
      simp [combineScan, hq]
    · by_cases he : eligible ctxUses rest Q = true
      · by_cases hr : rest.isEmpty = true
        · right
          have hnil : rest = [] := List.isEmpty_iff.mp hr
          subst hnil
          simp [combineScan, hq, he]
        · have ih := combineScan_progress ctxUses rest (prependIntoFront Q P) true
          have heq : combineScan ctxUses (Q :: rest) P ch =
              combineScan ctxUses rest (prependIntoFront Q P) true := by
            simp [combineScan, hq, he, hr]
          right
          rw [heq]
          rcases ih with h | ⟨h1, h2⟩
          · rw [h]
            refine ⟨rfl, ?_⟩
            simp
          · exact ⟨h1, by simp; omega⟩
      · left
        simp [combineScan, hq, he]

/-- C7: `CombineParallel` commits or leaves the segment untouched, and its
report is exact: it returns success precisely when the resulting segment
differs from the original `pre ++ [P]` — in particular, when the backward
scan stops at an ineligible predecessor it reports success if and only if
at least one operation was relocated earlier in the scan, and a failure
always returns the block segment unchanged. -/
theorem c7_success_iff_changed (ctxUses : List Nat) (ctxHasPar : Bool)
    (pre : List Op) (P : Op) :
    (combineParallel ctxUses ctxHasPar pre P).1 = true ↔
      (combineParallel ctxUses ctxHasPar pre P).2 ≠ pre ++ [P] := by
  unfold combineParallel
  by_cases h0 : pre.isEmpty = true
  · simp [h0]
  · by_cases h1 : (ctxHasPar || pre.any hasParOp) = true
    · simp only [h0, h1, Bool.not_true, if_false, Bool.false_eq_true, if_true]
      rcases combineScan_progress ctxUses pre.reverse P false with h | ⟨ha, hb⟩
      · rw [h]
        simp
      · simp only [ha, true_iff]
        intro heq
        rw [heq] at hb
        simp at hb
    · simp [h0, h1]

/-- C10: an operation that does not implement the memory-effect interface
is never classified read-only, whatever its regions hold; the nested-region
recursion only runs for operations with the recursive side-effect trait
(without it the classifier's verdict is independent of the regions); and an
interface-less non-parallel operation immediately preceding the matched
parallel stops the backward scan at that point, leaving the segment
unchanged. -/
theorem c10_no_iface_never_readonly :
    (∀ (k : OpKind) (os rs : List Nat) (regs : List Region),
        kindIface k = none → isReadOnly (.mk k os rs regs) = false) ∧
    (∀ (k : OpKind) (os rs : List Nat) (regs : List Region),
        hasRecTrait k = false →
          isReadOnly (.mk k os rs regs) = isReadOnly (.mk k os rs [])) ∧
    (∀ (ctxUses : List Nat) (rest : List Op) (P Q : Op) (ch : Bool),
        (Q.kind == .parallel) = false → kindIface Q.kind = none →
          combineScan ctxUses (Q :: rest) P ch =
            (ch, (Q :: rest).reverse ++ [P])) := by
  refine ⟨?_, ?_, ?_⟩
  · intro k os rs regs h
    simp [isReadOnly, h]
  · intro k os rs regs h
    simp [isReadOnly, h, readOnlyRegions]
  · intro ctxUses rest P Q ch hq hi
    have hro : isReadOnly Q = false := by
      rcases Q with ⟨k, os, rs, regs⟩
      simp [Op.kind] at hi
      simp [isReadOnly, hi]
    simp [combineScan, hq, eligible, hro]

theorem c10_no_iface_never_readonly_witness :
    isReadOnly ifaceless = false ∧
      combineScan [] [ifaceless] parTrivial false =
        (false, [ifaceless, parTrivial]) := by
  constructor
  · exact c10_no_iface_never_readonly.1 (.generic false false [] 0) [] [] [] rfl
  · have h := c10_no_iface_never_readonly.2.2 [] [] parTrivial ifaceless false rfl rfl
    simpa using h

theorem c1_merge_bodies_witness :
    combineParallel [] false
        ([] ++ [Op.mk .parallel [] [] [.mk [.mk [] [termOp]]]])
        (Op.mk .parallel [] [] [.mk [.mk [] [termOp]]]) =
      (true, [] ++ [Op.mk .parallel [] []
        [.mk [.mk [] ([termOp].dropLast ++ [barrierOp] ++ [termOp])]]]) :=
  c1_merge_bodies [] false [] [] [] [] [] [] [] [termOp] [termOp] [] [] [] []

theorem c2_for_interchange_witness :
    parallelForInterchange
        (.mk .forLoop [1] [] [.mk [.mk [9]
          [.mk .parallel [] [] [.mk [.mk [] ([] ++ [termOp])]], termOp]]]) =
      some (.mk .parallel [] [] [.mk [.mk []
        [.mk .forLoop [1] [] [.mk [.mk [9] ([] ++ [barrierOp, termOp])]],
         termOp]]]) ∧
    parallelForInterchange (.mk .forLoop [1] [5] []) = none :=
  ⟨c2_for_interchange.1 [1] [9] [] [] [] [] [] [] [] [] termOp termOp,
   c2_for_interchange.2 [1] 5 [] []⟩

theorem c7_success_iff_changed_witness :
    ((combineParallel [] true [readerOp] parUsing7).1 = true ↔
      (combineParallel [] true [readerOp] parUsing7).2 ≠ [readerOp] ++ [parUsing7]) :=
  c7_success_iff_changed [] true [readerOp] parUsing7

end OMP
